import Mathlib

/-!
# Nori `Accel`: a bounding volume hierarchy for ray / triangle queries

Shallow embedding of `include/nori/accel.h`.  The header declares the class
`Accel` with its fields, its constructor, its destructor and the accessor
`getBoundingBox`; those are embedded from the header.  The headers
`nori/mesh.h`, `nori/bvhprimitiveinfo.h`, `nori/bvhnode.h` and the bodies of
`addMesh`, `build`, `buildRecursive` and `rayIntersect` are declared but not
defined there; they are modelled from the specification, and every such
definition says so in its doc comment.

Scalars (`float` in the program) are exact rationals.
-/

namespace Nori

/-! ## Geometry consumed by the accelerator -/

/-- Modelled from the spec: a point of 3D space (`Point3f`, declared outside
`accel.h`), indexed by axis. -/
abbrev Point3f := Fin 3 → ℚ

/-- Modelled from the spec: a direction of 3D space (`Vector3f`, declared
outside `accel.h`), indexed by axis. -/
abbrev Vector3f := Fin 3 → ℚ

/-- Modelled from the spec: `Ray3f` (declared outside `accel.h`), "a
3-dimensional ray data structure with minimum/maximum extent information". -/
structure Ray3f where
  o : Point3f
  d : Vector3f
  mint : ℚ
  maxt : ℚ

/-- The point at parameter `t` along the ray. -/
def Ray3f.pointAt (ray : Ray3f) (t : ℚ) : Point3f := fun i => ray.o i + t * ray.d i

/-- Modelled from the spec: `BoundingBox3f` (declared outside `accel.h`), an
"axis-aligned box in 3D (min corner, max corner)" with "min ≤ max
component-wise, or the box is explicitly empty". -/
inductive BoundingBox3f where
  | empty : BoundingBox3f
  | box (min max : Point3f) : BoundingBox3f

namespace BoundingBox3f

/-- Modelled from the spec: the containment test of `BoundingBox3f`. -/
def contains : BoundingBox3f → Point3f → Prop
  | empty, _ => False
  | box lo hi, p => ∀ i : Fin 3, lo i ≤ p i ∧ p i ≤ hi i

instance (b : BoundingBox3f) (p : Point3f) : Decidable (b.contains p) := by
  cases b <;> unfold contains <;> infer_instance

/-- Modelled from the spec: the union of two boxes of `BoundingBox3f`. -/
def union : BoundingBox3f → BoundingBox3f → BoundingBox3f
  | empty, b => b
  | a, empty => a
  | box lo hi, box lo2 hi2 => box (fun i => min (lo i) (lo2 i)) (fun i => max (hi i) (hi2 i))

/-- Modelled from the spec: growing a `BoundingBox3f` to cover one more
point (used for the bounding box of the centroids). -/
def expandBy (b : BoundingBox3f) (p : Point3f) : BoundingBox3f := b.union (box p p)

/-- Modelled from the spec: the centroid query of `BoundingBox3f`. -/
def getCenter : BoundingBox3f → Point3f
  | empty => fun _ => 0
  | box lo hi => fun i => (lo i + hi i) / 2

/-- Modelled from the spec: the extent query of `BoundingBox3f`. -/
def getExtents : BoundingBox3f → Vector3f
  | empty => fun _ => 0
  | box lo hi => fun i => hi i - lo i

/-- Modelled from the spec: the axis of greatest extent of a
`BoundingBox3f`. -/
def getMajorAxis (b : BoundingBox3f) : Fin 3 :=
  let e := b.getExtents
  if e 1 ≤ e 0 ∧ e 2 ≤ e 0 then 0 else if e 2 ≤ e 1 then 1 else 2

/-- Modelled from the spec: one axis of the ray-slab test of
`BoundingBox3f`.  The running entry/exit distances `(nearT, farT)` are
clipped to the slab of axis `i`; `none` reports a miss. -/
def slab (lo hi : Point3f) (ray : Ray3f) (acc : Option (ℚ × ℚ)) (i : Fin 3) : Option (ℚ × ℚ) :=
  match acc with
  | none => none
  | some (nearT, farT) =>
    if ray.d i = 0 then
      if ray.o i < lo i ∨ hi i < ray.o i then none else some (nearT, farT)
    else
      let t0 := (lo i - ray.o i) / ray.d i
      let t1 := (hi i - ray.o i) / ray.d i
      let nearT2 := max (min t0 t1) nearT
      let farT2 := min (max t0 t1) farT
      if farT2 < nearT2 then none else some (nearT2, farT2)

/-- Modelled from the spec: the "ray-slab intersection test (returns
hit/miss and entry/exit distances)" of `BoundingBox3f`.  The distances are
taken within the ray's parametric interval `[mint, maxt]`. -/
def rayIntersect : BoundingBox3f → Ray3f → Option (ℚ × ℚ)
  | empty, _ => none
  | box lo hi, ray =>
    if ray.maxt < ray.mint then none
    else [0, 1, 2].foldl (slab lo hi ray) (some (ray.mint, ray.maxt))

end BoundingBox3f

/-- Modelled from the spec: one triangle of the "triangle geometry" behind a
mesh handle (declared in `nori/mesh.h`, outside `accel.h`). -/
structure Triangle where
  p0 : Point3f
  p1 : Point3f
  p2 : Point3f

/-- Modelled from the spec: the dot product of `Vector3f` (declared outside
`accel.h`), used by the triangle test. -/
def dot (a b : Vector3f) : ℚ := a 0 * b 0 + a 1 * b 1 + a 2 * b 2

/-- Modelled from the spec: the cross product of `Vector3f` (declared outside
`accel.h`), used by the triangle test. -/
def cross (a b : Vector3f) : Vector3f :=
  ![a 1 * b 2 - a 2 * b 1, a 2 * b 0 - a 0 * b 2, a 0 * b 1 - a 1 * b 0]

namespace Triangle

/-- Modelled from the spec: the bounding box of one triangle. -/
def getBoundingBox (tri : Triangle) : BoundingBox3f :=
  .box (fun i => min (tri.p0 i) (min (tri.p1 i) (tri.p2 i)))
       (fun i => max (tri.p0 i) (max (tri.p1 i) (tri.p2 i)))

/-- Modelled from the spec: the "canonical barycentric-intersection
routine" of the mesh collaborator, before the interval check: the distance
along the line `o + t d` at which it meets the triangle, solved for the
barycentric coordinates `u`, `v` by Cramer's rule. -/
def hitDistance (tri : Triangle) (o : Point3f) (d : Vector3f) : Option ℚ :=
  let edge1 : Vector3f := fun i => tri.p1 i - tri.p0 i
  let edge2 : Vector3f := fun i => tri.p2 i - tri.p0 i
  let pvec := cross d edge2
  let det := dot edge1 pvec
  if det = 0 then none
  else
    let tvec : Vector3f := fun i => o i - tri.p0 i
    let u := dot tvec pvec / det
    if u < 0 ∨ 1 < u then none
    else
      let qvec := cross tvec edge1
      let v := dot d qvec / det
      if v < 0 ∨ 1 < u + v then none
      else some (dot edge2 qvec / det)

end Triangle

/-- Modelled from the spec: `Mesh` (declared in `nori/mesh.h`, outside
`accel.h`), an "opaque handle to triangle geometry" that "exposes triangle
count, per-triangle bounding box, and a ray/triangle intersection test". -/
structure Mesh where
  triangles : List Triangle

namespace Mesh

/-- Modelled from the spec: the triangle count a mesh exposes. -/
def getTriangleCount (m : Mesh) : Nat := m.triangles.length

/-- Modelled from the spec: the per-triangle bounding box a mesh exposes. -/
def getBoundingBox (m : Mesh) (index : Nat) : BoundingBox3f :=
  match m.triangles[index]? with
  | none => .empty
  | some tri => tri.getBoundingBox

/-- Modelled from the spec: the box of a whole mesh, the union of its
triangles' boxes. -/
def getMeshBoundingBox (m : Mesh) : BoundingBox3f :=
  m.triangles.foldl (fun b tri => b.union tri.getBoundingBox) .empty

/-- Modelled from the spec: the "exact ray/triangle intersection test" a
mesh exposes.  A hit counts only when its distance falls within the ray's
parametric interval `[mint, maxt]`. -/
def rayIntersect (m : Mesh) (index : Nat) (ray : Ray3f) : Option ℚ :=
  match m.triangles[index]? with
  | none => none
  | some tri =>
    match tri.hitDistance ray.o ray.d with
    | none => none
    | some t => if ray.mint ≤ t ∧ t ≤ ray.maxt then some t else none

end Mesh

/-! ## The data model of `accel.h` -/

/-- Modelled from the spec: `SplitMethod` (declared in `nori/bvhnode.h`,
outside `accel.h`; `accel.h` names its value `SPLIT_MIDDLE`), "enumerated:
Middle, EqualCounts". -/
inductive SplitMethod where
  | SPLIT_MIDDLE
  | SPLIT_EQUAL_COUNTS
  deriving DecidableEq

/-- Modelled from the spec: `BvhPrimitiveInfo` (declared in
`nori/bvhprimitiveinfo.h`, outside `accel.h`), "{ global primitive index,
bounding box, centroid }". -/
structure BvhPrimitiveInfo where
  index : Nat
  bbox : BoundingBox3f
  centroid : Point3f

/-- Modelled from the spec: `BvhNode` (declared in `nori/bvhnode.h`, outside
`accel.h`), "tagged as Interior{ bounding box, left child, right child,
split axis } or Leaf{ bounding box, first primitive offset, primitive
count }".  A child link is the position of the child in `m_nodes`, the
value `buildRecursive` returns. -/
inductive BvhNode where
  | Interior (bbox : BoundingBox3f) (left right : Nat) (axis : Fin 3)
  | Leaf (bbox : BoundingBox3f) (first count : Nat)

/-- Modelled from the spec: the bounding box both kinds of `BvhNode`
store. -/
def BvhNode.bbox : BvhNode → BoundingBox3f
  | .Interior b _ _ _ => b
  | .Leaf b _ _ => b

/-- Whether a node is a Leaf whose primitive range holds position `k` of the
primitive info array. -/
def BvhNode.holds (k : Nat) : BvhNode → Bool
  | .Interior _ _ _ _ => false
  | .Leaf _ first count => decide (first ≤ k ∧ k < first + count)

/-- The private fields of `class Accel`, in declaration order.  An owning
pointer is embedded as the object it points to; `m_mesh = nullptr` is
`none`. -/
structure Accel where
  m_mesh : Option Mesh
  m_bbox : BoundingBox3f
  m_splitMethod : SplitMethod
  m_maxPrimitivesPerNode : Nat
  m_primitives : List BvhPrimitiveInfo
  m_nodes : List BvhNode

namespace Accel

/-- The constructor `Accel(primPerNode, split)`: the two initialisers of the
member initialiser list, every other field by its default member
initialiser (`m_mesh = nullptr`, a default `BoundingBox3f`, two empty
vectors).  `primPerNode` is a `uint32_t` stored as it is given, with no
arithmetic on it, so it is embedded as a natural number. -/
def new (primPerNode : Nat) (split : SplitMethod) : Accel :=
  { m_mesh := none
    m_bbox := .empty
    m_splitMethod := split
    m_maxPrimitivesPerNode := primPerNode
    m_primitives := []
    m_nodes := [] }

/-- The constructor called with no argument: `primPerNode = 8` and
`split = SplitMethod::SPLIT_MIDDLE` are the declared default arguments. -/
def newDefault : Accel := new 8 SplitMethod.SPLIT_MIDDLE

/-- One `delete` performed by the destructor. -/
inductive Released where
  | primitive (p : BvhPrimitiveInfo)
  | node (n : BvhNode)

/-- The destructor `~Accel()`: `for_each` over `m_primitives` deleting every
entry, `m_primitives.clear()`, `for_each` over `m_nodes` deleting every
entry, `m_nodes.clear()`.  Returns the deletions in program order and the
fields as the destructor body leaves them. -/
def destroy (a : Accel) : List Released × Accel :=
  let log1 := a.m_primitives.foldl (fun log p => log ++ [Released.primitive p]) []
  let a1 := { a with m_primitives := [] }
  let log2 := a1.m_nodes.foldl (fun log n => log ++ [Released.node n]) log1
  let a2 := { a1 with m_nodes := [] }
  (log2, a2)

/-- The accessor `getBoundingBox() const`: returns `m_bbox`; the second
component is the object after the call. -/
def getBoundingBox (a : Accel) : BoundingBox3f × Accel := (a.m_bbox, a)


/-! ### Operations declared in `accel.h` and defined outside it -/

/-- Modelled from the spec: the usage-sequence violations, "programmer
errors reported immediately and synchronously". -/
inductive UsageError where
  | addMeshAfterBuild
  | buildAfterBuild
  deriving DecidableEq

/-- Modelled from the spec: whether `build()` has run.  `build()` always
emits the root node, so it has run exactly when `m_nodes` holds a node. -/
def isBuilt (a : Accel) : Bool := !a.m_nodes.isEmpty

/-- Modelled from the spec: the body of `Accel::addMesh`, which "registers a
mesh's triangles into the universe to be indexed; fails (reports a usage
error) if called after build() has run; updates the running scene-wide
bounding box as a side effect".  The header keeps one `m_mesh`; the
triangles of every registered mesh are gathered in it, a triangle's global
index being its position there.  Returns the outcome and the object after
the call. -/
def addMesh (a : Accel) (mesh : Mesh) : Except UsageError Unit × Accel :=
  if a.isBuilt then (.error .addMeshAfterBuild, a)
  else
    let registered : Mesh :=
      match a.m_mesh with
      | none => mesh
      | some m => { triangles := m.triangles ++ mesh.triangles }
    (.ok (), { a with m_mesh := some registered
                      m_bbox := a.m_bbox.union mesh.getMeshBoundingBox })

/-- Modelled from the spec: the Primitive Info Table, one entry "{box,
centroid, global index}" per registered triangle, in index order; empty
when no mesh is registered. -/
def primitiveInfoTable (mesh : Option Mesh) : List BvhPrimitiveInfo :=
  match mesh with
  | none => []
  | some m =>
    (List.range m.getTriangleCount).map fun i =>
      { index := i, bbox := m.getBoundingBox i, centroid := (m.getBoundingBox i).getCenter }

/-- Modelled from the spec: the "maximum recursion depth" of the Hierarchy
Builder.  The spec names no value. -/
def maxBuildDepth : Nat := 64

/-- Modelled from the spec: the contiguous range `[left_index, right_index)`
of the primitive info table a builder step works on. -/
def primitiveRange (a : Accel) (left_index right_index : Nat) : List BvhPrimitiveInfo :=
  (a.m_primitives.drop left_index).take (right_index - left_index)

/-- Modelled from the spec: builder step 1, "the bounding box of the current
range by unioning all primitives' boxes in it". -/
def rangeBounds (range : List BvhPrimitiveInfo) : BoundingBox3f :=
  range.foldl (fun (b : BoundingBox3f) p => b.union p.bbox) BoundingBox3f.empty

/-- Modelled from the spec: "the centroids' bounding box" of a range. -/
def centroidBounds (range : List BvhPrimitiveInfo) : BoundingBox3f :=
  range.foldl (fun (b : BoundingBox3f) p => b.expandBy p.centroid) BoundingBox3f.empty

/-- Modelled from the spec: builder step 2, "emit a Leaf covering that
contiguous range".  Returns the object and the position of the new node. -/
def emitLeaf (a : Accel) (left_index right_index : Nat) : Accel × Nat :=
  ({ a with m_nodes := a.m_nodes ++
      [.Leaf (rangeBounds (a.primitiveRange left_index right_index)) left_index
        (right_index - left_index)] },
   a.m_nodes.length)

/-- Modelled from the spec: builder step 3, the two split methods.  Returns
the range reordered and the number of primitives that go left.
Middle: "primitives with centroid coordinate below the midpoint go left, the
rest go right".  Equal-counts: "order by centroid coordinate on the chosen
axis and split at the median index". -/
def splitRange (method : SplitMethod) (axis : Fin 3) (cbox : BoundingBox3f)
    (range : List BvhPrimitiveInfo) : List BvhPrimitiveInfo × Nat :=
  match method with
  | .SPLIT_MIDDLE =>
    let pmid := cbox.getCenter axis
    let below := range.filter (fun p => decide (p.centroid axis < pmid))
    let rest := range.filter (fun p => !decide (p.centroid axis < pmid))
    (below ++ rest, below.length)
  | .SPLIT_EQUAL_COUNTS =>
    (range.insertionSort (fun p q => p.centroid axis ≤ q.centroid axis), range.length / 2)

/-- Modelled from the spec: "partitioning physically reorders the primitive
info array in place": the range `[left_index, right_index)` is overwritten
with `range`. -/
def reorder (a : Accel) (left_index right_index : Nat) (range : List BvhPrimitiveInfo) :
    Accel :=
  { a with m_primitives :=
             a.m_primitives.take left_index ++ range ++ a.m_primitives.drop right_index }

/-- Modelled from the spec: the box of the child at position `c` of
`m_nodes`, read when the parent's box is formed in builder step 5. -/
def childBox (a : Accel) (c : Nat) : BoundingBox3f :=
  match a.m_nodes[c]? with
  | none => .empty
  | some n => n.bbox

/-- Modelled from the spec: builder step 5, an Interior node whose box is
"the union of its children's boxes".  Returns the object and the position
of the new node. -/
def emitInterior (a : Accel) (l r : Nat) (axis : Fin 3) : Accel × Nat :=
  ({ a with m_nodes := a.m_nodes ++ [.Interior ((a.childBox l).union (a.childBox r)) l r axis] },
   a.m_nodes.length)

/-- Modelled from the spec: the body of `Accel::buildRecursive` (Hierarchy
Builder, steps 1 to 5) on the range `[left_index, right_index)` of
`m_primitives`.  Children are built first and the node is appended to
`m_nodes` after them; the result is the node's position in `m_nodes`. -/
def buildRecursive (a : Accel) (left_index right_index depth : Nat) : Accel × Nat :=
  -- step 2: small range, or maximum depth reached
  if right_index - left_index ≤ a.m_maxPrimitivesPerNode ∨ maxBuildDepth ≤ depth then
    a.emitLeaf left_index right_index
  else
    -- step 3: split axis, the greatest extent of the centroids' box
    let cbox := centroidBounds (a.primitiveRange left_index right_index)
    -- step 4: all centroids coincide on every axis
    if ∀ i : Fin 3, cbox.getExtents i = 0 then a.emitLeaf left_index right_index
    else
      let axis := cbox.getMajorAxis
      let split := splitRange a.m_splitMethod axis cbox (a.primitiveRange left_index right_index)
      let mid := left_index + split.2
      -- step 5: recurse left and right
      let l := buildRecursive (a.reorder left_index right_index split.1) left_index mid (depth + 1)
      let r := buildRecursive l.1 mid right_index (depth + 1)
      r.1.emitInterior l.2 r.2 axis
termination_by maxBuildDepth - depth
decreasing_by all_goals omega

/-- Modelled from the spec: the body of `Accel::build`, which "consumes all
registered meshes' geometry, produces the primitive info table and node
hierarchy".  A second call is "reported as invalid" and changes nothing.
The root is the node emitted last. -/
def build (a : Accel) : Except UsageError Unit × Accel :=
  if a.isBuilt then (.error .buildAfterBuild, a)
  else
    let a1 := { a with m_primitives := primitiveInfoTable a.m_mesh }
    (.ok (), (buildRecursive a1 0 a1.m_primitives.length 0).1)

/-- Modelled from the spec: the intersection record, "distance along ray,
hit primitive index"; the hit/no-hit flag is the `bool` that `rayIntersect`
returns. -/
structure Intersection where
  t : ℚ
  idx : Nat

/-- Modelled from the spec: the state of one query: the ray with its
current parametric interval, the record being filled, and whether a hit was
found so far. -/
structure Traversal where
  ray : Ray3f
  its : Intersection
  found : Bool

/-- Modelled from the spec: the test of one primitive at a Leaf node:
"update the best hit if a closer one is found (detailed mode) or return
immediately on first hit (shadow mode)"; a hit "narrows the interval's upper
bound". -/
def intersectPrimitive (mesh : Mesh) (shadowRay : Bool) (st : Traversal)
    (p : BvhPrimitiveInfo) : Traversal :=
  if shadowRay ∧ st.found then st
  else
    match mesh.rayIntersect p.index st.ray with
    | none => st
    | some t =>
      if shadowRay then { st with found := true }
      else { ray := { st.ray with maxt := t }, its := { t := t, idx := p.index }, found := true }

/-- Modelled from the spec: Intersection Traversal from the node at
position `idx`.  The ray is tested against the node's box (a miss prunes the
subtree, as does a best hit closer than the entry distance); a Leaf tests
every primitive of its range; an Interior node visits its children
near-to-far by the sign of the ray direction along the split axis.  `fuel`
bounds the depth of the descent. -/
def traverse (a : Accel) (mesh : Mesh) (shadowRay : Bool) :
    Nat → Nat → Traversal → Traversal
  | 0, _, st => st
  | fuel + 1, idx, st =>
    if shadowRay ∧ st.found then st
    else
      match a.m_nodes[idx]? with
      | none => st
      | some node =>
        match node.bbox.rayIntersect st.ray with
        | none => st
        | some (tEntry, _) =>
          if st.found ∧ st.its.t < tEntry then st
          else
            match node with
            | .Leaf _ first count =>
              ((a.m_primitives.drop first).take count).foldl (intersectPrimitive mesh shadowRay) st
            | .Interior _ l r axis =>
              if st.ray.d axis < 0 then
                traverse a mesh shadowRay fuel l (traverse a mesh shadowRay fuel r st)
              else
                traverse a mesh shadowRay fuel r (traverse a mesh shadowRay fuel l st)

/-- Modelled from the spec: the body of `Accel::rayIntersect`, "the sole
query entry point".  `its` is the caller's record; the result is the
returned `bool` and the record after the call.  Without a mesh, or before
`build()`, the structure is empty and the query reports no hit. -/
def rayIntersect (a : Accel) (ray : Ray3f) (its : Intersection) (shadowRay : Bool) :
    Bool × Intersection :=
  match a.m_mesh with
  | none => (false, its)
  | some mesh =>
    let st := traverse a mesh shadowRay a.m_nodes.length (a.m_nodes.length - 1)
      { ray := ray, its := its, found := false }
    (st.found, st.its)

/-- The exhaustive test the spec compares the structure with: the distances
at which `ray` hits the registered triangles, every triangle tested in
index order against the unmodified ray. -/
def exhaustiveHits (a : Accel) (ray : Ray3f) : List ℚ :=
  match a.m_mesh with
  | none => []
  | some mesh => (List.range mesh.getTriangleCount).filterMap fun i => mesh.rayIntersect i ray

/-- The number of registered triangles, the length the primitive info table
must have. -/
def registeredTriangleCount (a : Accel) : Nat :=
  match a.m_mesh with
  | none => 0
  | some mesh => mesh.getTriangleCount

/-! ### Invariants of the hierarchy and of a query in progress -/

/-- The subtree rooted at position `idx` of `nodes` is well formed over the
range `[lo, hi)` of `prims`: a Leaf addresses exactly that range, an
Interior node splits it between two children built before it, and the box
of every node contains the box of every primitive of its range. -/
inductive Covers (prims : List BvhPrimitiveInfo) (nodes : List BvhNode) :
    Nat → Nat → Nat → Prop where
  | leaf (idx lo hi : Nat) (bbox : BoundingBox3f)
      (hnode : nodes[idx]? = some (.Leaf bbox lo (hi - lo)))
      (hle : lo ≤ hi)
      (hbox : ∀ k p, lo ≤ k → k < hi → prims[k]? = some p →
        ∀ pt, p.bbox.contains pt → bbox.contains pt) :
      Covers prims nodes idx lo hi
  | interior (idx lo mid hi : Nat) (bbox : BoundingBox3f) (l r : Nat) (axis : Fin 3)
      (hnode : nodes[idx]? = some (.Interior bbox l r axis))
      (hl : l < idx) (hr : r < idx) (hlo : lo ≤ mid) (hhi : mid ≤ hi)
      (hleft : Covers prims nodes l lo mid) (hright : Covers prims nodes r mid hi)
      (hbox : ∀ k p, lo ≤ k → k < hi → prims[k]? = some p →
        ∀ pt, p.bbox.contains pt → bbox.contains pt) :
      Covers prims nodes idx lo hi

/-- What a call `buildRecursive a left right depth` with result `res`
guarantees: the configuration and the mesh are untouched, nodes are only
appended and the last one is the returned root, the appended Leaf nodes
tile `[left, right)`, the primitive info array is permuted within
`[left, right)` only, and the returned subtree is well formed. -/
structure BuildPost (a : Accel) (left right : Nat) (res : Accel × Nat) : Prop where
  mesh_eq : res.1.m_mesh = a.m_mesh
  bbox_eq : res.1.m_bbox = a.m_bbox
  split_eq : res.1.m_splitMethod = a.m_splitMethod
  maxPrims_eq : res.1.m_maxPrimitivesPerNode = a.m_maxPrimitivesPerNode
  nodes_eq : ∃ extra, res.1.m_nodes = a.m_nodes ++ extra ∧
    ∀ k, extra.countP (BvhNode.holds k) = if left ≤ k ∧ k < right then 1 else 0
  root_eq : res.2 + 1 = res.1.m_nodes.length
  length_eq : res.1.m_primitives.length = a.m_primitives.length
  frame : ∀ k, k < left ∨ right ≤ k → res.1.m_primitives[k]? = a.m_primitives[k]?
  perm : res.1.m_primitives.Perm a.m_primitives
  covers : Covers res.1.m_primitives res.1.m_nodes res.2 left right

/-- Every entry of the primitive info table carries the box its mesh
reports for the triangle it names. -/
def TableOK (mesh : Mesh) (prims : List BvhPrimitiveInfo) : Prop :=
  ∀ p ∈ prims, p.bbox = mesh.getBoundingBox p.index

/-- Invariant of a query of `ray` in progress: until a hit is found the ray
is untouched; once one is found it is a hit of `ray` on some triangle, and
in detailed mode the record holds its distance and the interval's upper
bound was narrowed to it. -/
def Traversal.Sound (mesh : Mesh) (ray : Ray3f) (shadowRay : Bool) (st : Traversal) : Prop :=
  (st.found = false → st.ray = ray) ∧
  (st.found = true → ∃ i t, mesh.rayIntersect i ray = some t ∧
    (shadowRay = false → st.its.t = t ∧ st.ray = { ray with maxt := t }))

/-- Triangle `i` is accounted for in state `st`: if `ray` hits it, a hit
was found, and in detailed mode the recorded distance is no farther. -/
def Traversal.Settled (mesh : Mesh) (ray : Ray3f) (shadowRay : Bool) (st : Traversal)
    (i : Nat) : Prop :=
  ∀ t, mesh.rayIntersect i ray = some t →
    st.found = true ∧ (shadowRay = false → st.its.t ≤ t)

/-- State `st2` is at least as advanced as `st1`: a found hit stays found,
and in detailed mode the recorded distance does not grow. -/
def Traversal.Le (shadowRay : Bool) (st1 st2 : Traversal) : Prop :=
  (st1.found = true → st2.found = true) ∧
  (shadowRay = false → st1.found = true → st2.its.t ≤ st1.its.t)

/-! ### A sample scene -/

/-- Two triangles facing the z axis, one in the plane `z = 0` and one in the
plane `z = 1`. -/
def sampleMesh : Mesh :=
  { triangles := [⟨![0, 0, 0], ![1, 0, 0], ![0, 1, 0]⟩, ⟨![0, 0, 1], ![1, 0, 1], ![0, 1, 1]⟩] }

/-- `Accel(1, SPLIT_MIDDLE)` with `sampleMesh` registered, `build()` not yet
called. -/
def sampleAccel : Accel := ((Accel.new 1 SplitMethod.SPLIT_MIDDLE).addMesh sampleMesh).2

/-- A ray along the z axis through both triangles of `sampleMesh`. -/
def sampleRay : Ray3f := { o := ![1 / 4, 1 / 4, -1], d := ![0, 0, 1], mint := 0, maxt := 10 }

/-- An object holding one primitive info entry and two nodes, as the
destructor may find it. -/
def sampleOwned : Accel :=
  { m_mesh := some sampleMesh
    m_bbox := .empty
    m_splitMethod := .SPLIT_MIDDLE
    m_maxPrimitivesPerNode := 8
    m_primitives := [{ index := 0, bbox := .empty, centroid := fun _ => 0 }]
    m_nodes := [.Leaf .empty 0 1, .Interior .empty 0 0 0] }

end Accel

end Nori

/-! ## Geometry: containment, the slab test, the triangle test -/

namespace Nori

theorem BoundingBox3f.slab_of_mem (lo hi : Point3f) (ray : Ray3f) (i : Fin 3) (t n f : ℚ)
    (hlo : lo i ≤ ray.o i + t * ray.d i) (hhi : ray.o i + t * ray.d i ≤ hi i)
    (hn : n ≤ t) (hf : t ≤ f) :
    ∃ n2 f2, slab lo hi ray (some (n, f)) i = some (n2, f2) ∧ n2 ≤ t ∧ t ≤ f2 := by
  unfold slab
  by_cases hd : ray.d i = 0
  · have h1 : ¬ (ray.o i < lo i ∨ hi i < ray.o i) := by
      rw [hd] at hlo hhi
      simp only [mul_zero, add_zero] at hlo hhi
      rintro (h | h) <;> linarith
    simp only [hd, if_true, h1, if_false]
    exact ⟨n, f, rfl, hn, hf⟩
  · simp only [hd, if_false]
    have key : min ((lo i - ray.o i) / ray.d i) ((hi i - ray.o i) / ray.d i) ≤ t ∧
        t ≤ max ((lo i - ray.o i) / ray.d i) ((hi i - ray.o i) / ray.d i) := by
      rcases lt_or_gt_of_ne hd with hneg | hpos
      · constructor
        · apply (min_le_right _ _).trans
          rw [div_le_iff_of_neg hneg]; linarith
        · apply le_trans _ (le_max_left _ _)
          rw [le_div_iff_of_neg hneg]; linarith
      · constructor
        · apply (min_le_left _ _).trans
          rw [div_le_iff₀ hpos]; linarith
        · apply le_trans _ (le_max_right _ _)
          rw [le_div_iff₀ hpos]; linarith
    have h1 : max (min ((lo i - ray.o i) / ray.d i) ((hi i - ray.o i) / ray.d i)) n ≤ t :=
      max_le key.1 hn
    have h2 : t ≤ min (max ((lo i - ray.o i) / ray.d i) ((hi i - ray.o i) / ray.d i)) f :=
      le_min key.2 hf
    rw [if_neg (not_lt.mpr (h1.trans h2))]
    exact ⟨_, _, rfl, h1, h2⟩

theorem BoundingBox3f.rayIntersect_of_contains (b : BoundingBox3f) (ray : Ray3f) (t : ℚ)
    (hb : b.contains (ray.pointAt t)) (hmin : ray.mint ≤ t) (hmax : t ≤ ray.maxt) :
    ∃ n f, b.rayIntersect ray = some (n, f) ∧ n ≤ t ∧ t ≤ f := by
  cases b with
  | empty => exact absurd hb (by simp [contains])
  | box lo hi =>
    simp only [contains, Ray3f.pointAt] at hb
    simp only [rayIntersect, if_neg (not_lt.mpr (hmin.trans hmax)), List.foldl_cons,
      List.foldl_nil]
    obtain ⟨n0, f0, e0, hn0, hf0⟩ := slab_of_mem lo hi ray 0 t _ _ (hb 0).1 (hb 0).2 hmin hmax
    rw [e0]
    obtain ⟨n1, f1, e1, hn1, hf1⟩ := slab_of_mem lo hi ray 1 t _ _ (hb 1).1 (hb 1).2 hn0 hf0
    rw [e1]
    exact slab_of_mem lo hi ray 2 t _ _ (hb 2).1 (hb 2).2 hn1 hf1

theorem BoundingBox3f.contains_union_left (a b : BoundingBox3f) (p : Point3f)
    (h : a.contains p) : (a.union b).contains p := by
  cases a with
  | empty => exact absurd h (by simp [contains])
  | box lo hi =>
    cases b with
    | empty => simpa [union] using h
    | box lo2 hi2 =>
      simp only [contains, union] at h ⊢
      intro i
      exact ⟨(min_le_left _ _).trans (h i).1, (h i).2.trans (le_max_left _ _)⟩

theorem BoundingBox3f.contains_union_right (a b : BoundingBox3f) (p : Point3f)
    (h : b.contains p) : (a.union b).contains p := by
  cases b with
  | empty => exact absurd h (by simp [contains])
  | box lo2 hi2 =>
    cases a with
    | empty => simpa [union] using h
    | box lo hi =>
      simp only [contains, union] at h ⊢
      intro i
      exact ⟨(min_le_right _ _).trans (h i).1, (h i).2.trans (le_max_right _ _)⟩

theorem Triangle.hitDistance_mem_box (tri : Triangle) (o : Point3f) (d : Vector3f) (t : ℚ)
    (h : tri.hitDistance o d = some t) :
    tri.getBoundingBox.contains (fun i => o i + t * d i) := by
  unfold hitDistance at h
  simp only at h
  split_ifs at h with hdet hu hv
  simp only [Option.some.injEq] at h
  push_neg at hu hv
  set det := dot (fun i => tri.p1 i - tri.p0 i) (cross d fun i => tri.p2 i - tri.p0 i) with hdetdef
  set u := dot (fun i => o i - tri.p0 i) (cross d fun i => tri.p2 i - tri.p0 i) / det with hudef
  set v := dot d (cross (fun i => o i - tri.p0 i) fun i => tri.p1 i - tri.p0 i) / det with hvdef
  have hpt : ∀ i : Fin 3, o i + t * d i
      = (1 - u - v) * tri.p0 i + u * tri.p1 i + v * tri.p2 i := by
    intro i
    rw [← h, hudef, hvdef]
    have hd2 : det ≠ 0 := hdet
    field_simp
    rw [hdetdef]
    fin_cases i <;> simp [dot, cross] <;> ring
  simp only [getBoundingBox, BoundingBox3f.contains]
  intro i
  rw [hpt i]
  have hw : 0 ≤ 1 - u - v := by linarith [hv.2]
  constructor
  · have a0 := min_le_left (tri.p0 i) (min (tri.p1 i) (tri.p2 i))
    have a1 := (min_le_right (tri.p0 i) (min (tri.p1 i) (tri.p2 i))).trans (min_le_left _ _)
    have a2 := (min_le_right (tri.p0 i) (min (tri.p1 i) (tri.p2 i))).trans (min_le_right _ _)
    nlinarith [mul_le_mul_of_nonneg_left a0 hw, mul_le_mul_of_nonneg_left a1 hu.1,
      mul_le_mul_of_nonneg_left a2 hv.1]
  · have a0 := le_max_left (tri.p0 i) (max (tri.p1 i) (tri.p2 i))
    have a1 := (le_max_left (tri.p1 i) (tri.p2 i)).trans (le_max_right (tri.p0 i) _)
    have a2 := (le_max_right (tri.p1 i) (tri.p2 i)).trans (le_max_right (tri.p0 i) _)
    nlinarith [mul_le_mul_of_nonneg_left a0 hw, mul_le_mul_of_nonneg_left a1 hu.1,
      mul_le_mul_of_nonneg_left a2 hv.1]

theorem Mesh.rayIntersect_eq_some (m : Mesh) (i : Nat) (ray : Ray3f) (t : ℚ) :
    m.rayIntersect i ray = some t ↔
      ∃ tri, m.triangles[i]? = some tri ∧ tri.hitDistance ray.o ray.d = some t ∧
        ray.mint ≤ t ∧ t ≤ ray.maxt := by
  unfold Mesh.rayIntersect
  cases h1 : m.triangles[i]? with
  | none => simp
  | some tri =>
    cases h2 : tri.hitDistance ray.o ray.d with
    | none => simp [h2]
    | some t2 =>
      simp only [Option.some.injEq, exists_eq_left', h2]
      constructor
      · intro h
        split_ifs at h with hc
        simp only [Option.some.injEq] at h
        subst h
        exact ⟨rfl, hc⟩
      · rintro ⟨rfl, hc⟩
        rw [if_pos hc]

theorem Mesh.rayIntersect_mem_box (m : Mesh) (i : Nat) (ray : Ray3f) (t : ℚ)
    (h : m.rayIntersect i ray = some t) :
    (m.getBoundingBox i).contains (ray.pointAt t) ∧ ray.mint ≤ t ∧ t ≤ ray.maxt := by
  obtain ⟨tri, h1, h2, h3, h4⟩ := (Mesh.rayIntersect_eq_some m i ray t).mp h
  refine ⟨?_, h3, h4⟩
  simp only [Mesh.getBoundingBox, h1]
  exact tri.hitDistance_mem_box ray.o ray.d t h2

theorem Mesh.rayIntersect_narrow (m : Mesh) (i : Nat) (ray : Ray3f) (s t : ℚ) :
    m.rayIntersect i { ray with maxt := s } = some t ↔
      ∃ tri, m.triangles[i]? = some tri ∧ tri.hitDistance ray.o ray.d = some t ∧
        ray.mint ≤ t ∧ t ≤ s :=
  Mesh.rayIntersect_eq_some m i { ray with maxt := s } t

theorem Mesh.lt_count_of_rayIntersect (m : Mesh) (i : Nat) (ray : Ray3f) (t : ℚ)
    (h : m.rayIntersect i ray = some t) : i < m.getTriangleCount := by
  obtain ⟨tri, h1, _⟩ := (Mesh.rayIntersect_eq_some m i ray t).mp h
  exact (List.getElem?_eq_some.mp h1).1

namespace Accel

/-! ## Traversal: every triangle is accounted for -/

theorem traversal_le_refl (sh : Bool) (st : Traversal) : Traversal.Le sh st st :=
  ⟨id, fun _ _ => le_rfl⟩

theorem traversal_le_trans {sh : Bool} {s1 s2 s3 : Traversal}
    (h12 : Traversal.Le sh s1 s2) (h23 : Traversal.Le sh s2 s3) : Traversal.Le sh s1 s3 :=
  ⟨fun h => h23.1 (h12.1 h), fun hs h => (h23.2 hs (h12.1 h)).trans (h12.2 hs h)⟩

theorem settled_mono {mesh : Mesh} {ray : Ray3f} {sh : Bool} {s1 s2 : Traversal}
    {i : Nat} (h : Traversal.Settled mesh ray sh s1 i) (hle : Traversal.Le sh s1 s2) :
    Traversal.Settled mesh ray sh s2 i := by
  intro t ht
  obtain ⟨hf, hd⟩ := h t ht
  exact ⟨hle.1 hf, fun hs => (hle.2 hs hf).trans (hd hs)⟩

/-- A triangle the current (narrowed) ray misses is accounted for. -/
theorem settled_of_miss {mesh : Mesh} {ray : Ray3f} {sh : Bool} {st : Traversal}
    {i : Nat} (hs : Traversal.Sound mesh ray sh st)
    (hmiss : mesh.rayIntersect i st.ray = none) : Traversal.Settled mesh ray sh st i := by
  intro t ht
  cases hf : st.found with
  | false =>
    rw [hs.1 hf, ht] at hmiss
    exact absurd hmiss (by simp)
  | true =>
    refine ⟨rfl, fun hsh => ?_⟩
    obtain ⟨j, t0, _, hdet⟩ := hs.2 hf
    obtain ⟨ht0, hray⟩ := hdet hsh
    rw [ht0]
    by_contra hlt
    push_neg at hlt
    obtain ⟨tri, h1, h2, h3, _⟩ := (Mesh.rayIntersect_eq_some mesh i ray t).mp ht
    have : mesh.rayIntersect i st.ray = some t := by
      rw [hray]
      exact (Mesh.rayIntersect_narrow mesh i ray t0 t).mpr ⟨tri, h1, h2, h3, hlt.le⟩
    rw [this] at hmiss
    exact absurd hmiss (by simp)

theorem intersectPrimitive_spec (mesh : Mesh) (ray : Ray3f) (sh : Bool) (st : Traversal)
    (p : BvhPrimitiveInfo) (hs : Traversal.Sound mesh ray sh st) :
    Traversal.Sound mesh ray sh (intersectPrimitive mesh sh st p) ∧
    Traversal.Le sh st (intersectPrimitive mesh sh st p) ∧
    Traversal.Settled mesh ray sh (intersectPrimitive mesh sh st p) p.index := by
  unfold intersectPrimitive
  by_cases hc : sh = true ∧ st.found = true
  · rw [if_pos hc]
    refine ⟨hs, traversal_le_refl sh st, fun t _ => ⟨hc.2, fun h => ?_⟩⟩
    rw [hc.1] at h
    exact absurd h (by simp)
  · rw [if_neg hc]
    cases hhit : mesh.rayIntersect p.index st.ray with
    | none => exact ⟨hs, traversal_le_refl sh st, settled_of_miss hs hhit⟩
    | some t =>
      simp only
      -- the hit on the current ray is a hit on the original ray
      have horig : mesh.rayIntersect p.index ray = some t ∧
          (st.found = true → sh = false → t ≤ st.its.t) ∧
          (sh = false → ({ st.ray with maxt := t } : Ray3f) = { ray with maxt := t }) := by
        cases hf : st.found with
        | false =>
          have := hs.1 hf
          rw [this] at hhit
          exact ⟨hhit, fun h => absurd h (by simp), fun _ => by rw [this]⟩
        | true =>
          have hsh : sh = false := by
            cases sh with
            | false => rfl
            | true => exact absurd ⟨rfl, hf⟩ hc
          obtain ⟨j, t0, hj, hdet⟩ := hs.2 hf
          obtain ⟨ht0, hray⟩ := hdet hsh
          rw [hray] at hhit
          obtain ⟨tri, h1, h2, h3, h4⟩ := (Mesh.rayIntersect_narrow mesh p.index ray t0 t).mp hhit
          have hj2 := (Mesh.rayIntersect_eq_some mesh j ray t0).mp hj
          obtain ⟨_, _, _, _, ht0max⟩ := hj2
          refine ⟨(Mesh.rayIntersect_eq_some mesh p.index ray t).mpr
            ⟨tri, h1, h2, h3, h4.trans ht0max⟩, fun _ _ => ht0 ▸ h4, fun _ => by rw [hray]⟩
      cases sh with
      | true =>
        simp only [if_true]
        refine ⟨⟨fun h => absurd h (by simp), fun _ => ⟨p.index, t, horig.1, fun h => absurd h (by simp)⟩⟩,
          ⟨fun _ => rfl, fun h => absurd h (by simp)⟩, fun _ _ => ⟨rfl, fun h => absurd h (by simp)⟩⟩
      | false =>
        simp only [Bool.false_eq_true, if_false]
        refine ⟨⟨fun h => absurd h (by simp), fun _ => ⟨p.index, t, horig.1, fun _ => ⟨rfl, horig.2.2 rfl⟩⟩⟩,
          ⟨fun _ => rfl, fun _ hf => horig.2.1 hf rfl⟩, fun t2 ht2 => ⟨rfl, fun _ => ?_⟩⟩
        rw [horig.1] at ht2
        simp only [Option.some.injEq] at ht2
        exact ht2.le

theorem foldl_intersectPrimitive_spec (mesh : Mesh) (ray : Ray3f) (sh : Bool)
    (ps : List BvhPrimitiveInfo) (st : Traversal) (hs : Traversal.Sound mesh ray sh st) :
    Traversal.Sound mesh ray sh (ps.foldl (intersectPrimitive mesh sh) st) ∧
    Traversal.Le sh st (ps.foldl (intersectPrimitive mesh sh) st) ∧
    ∀ p ∈ ps, Traversal.Settled mesh ray sh (ps.foldl (intersectPrimitive mesh sh) st) p.index := by
  induction ps generalizing st with
  | nil => exact ⟨hs, traversal_le_refl sh st, fun p hp => absurd hp (by simp)⟩
  | cons q qs ih =>
    obtain ⟨h1, h2, h3⟩ := intersectPrimitive_spec mesh ray sh st q hs
    obtain ⟨g1, g2, g3⟩ := ih (intersectPrimitive mesh sh st q) h1
    simp only [List.foldl_cons]
    refine ⟨g1, traversal_le_trans h2 g2, fun p hp => ?_⟩
    rcases List.mem_cons.mp hp with rfl | hp
    · exact settled_mono h3 g2
    · exact g3 p hp

theorem mem_primitiveRange_of_getElem? (prims : List BvhPrimitiveInfo) (lo hi k : Nat)
    (p : BvhPrimitiveInfo) (h1 : lo ≤ k) (h2 : k < hi) (h : prims[k]? = some p) :
    p ∈ (prims.drop lo).take (hi - lo) := by
  rw [List.mem_iff_getElem?]
  refine ⟨k - lo, ?_⟩
  rw [List.getElem?_take_of_lt (by omega), List.getElem?_drop]
  rw [show lo + (k - lo) = k by omega]
  exact h

/-- A subtree whose box the current ray misses, or enters farther than the
best hit, holds no triangle that could improve the answer. -/
theorem settled_of_pruned {mesh : Mesh} {ray : Ray3f} {sh : Bool} {st : Traversal}
    {prims : List BvhPrimitiveInfo} {bbox : BoundingBox3f} {lo hi : Nat}
    (htab : TableOK mesh prims)
    (hbox : ∀ k p, lo ≤ k → k < hi → prims[k]? = some p →
      ∀ pt, p.bbox.contains pt → bbox.contains pt)
    (hs : Traversal.Sound mesh ray sh st)
    (hprune : bbox.rayIntersect st.ray = none ∨
      ∃ tE tX, bbox.rayIntersect st.ray = some (tE, tX) ∧ st.found = true ∧ st.its.t < tE) :
    ∀ k p, lo ≤ k → k < hi → prims[k]? = some p →
      Traversal.Settled mesh ray sh st p.index := by
  intro k p hk1 hk2 hp
  have hmem : p ∈ prims := List.mem_iff_getElem?.mpr ⟨k, hp⟩
  -- a hit of the current ray on `p` passes the box test, at or after the entry distance
  have hin : ∀ t, mesh.rayIntersect p.index st.ray = some t →
      ∃ n f, bbox.rayIntersect st.ray = some (n, f) ∧ n ≤ t ∧ t ≤ st.ray.maxt := by
    intro t ht
    obtain ⟨hb, hmin, hmax⟩ := Mesh.rayIntersect_mem_box mesh p.index st.ray t ht
    rw [← htab p hmem] at hb
    obtain ⟨n, f, e, hn, _⟩ :=
      BoundingBox3f.rayIntersect_of_contains bbox st.ray t (hbox k p hk1 hk2 hp _ hb) hmin hmax
    exact ⟨n, f, e, hn, hmax⟩
  rcases hprune with hnone | ⟨tE, tX, hsome, hf, hlt⟩
  · apply settled_of_miss hs
    cases hh : mesh.rayIntersect p.index st.ray with
    | none => rfl
    | some t =>
      obtain ⟨n, f, e, _, _⟩ := hin t hh
      rw [hnone] at e
      exact absurd e (by simp)
  · cases sh with
    | true => exact fun t _ => ⟨hf, fun h => absurd h (by simp)⟩
    | false =>
      apply settled_of_miss hs
      cases hh : mesh.rayIntersect p.index st.ray with
      | none => rfl
      | some t =>
        exfalso
        obtain ⟨n, f, e, hn, hmax⟩ := hin t hh
        rw [hsome] at e
        simp only [Option.some.injEq, Prod.mk.injEq] at e
        obtain ⟨j, t0, _, hdet⟩ := hs.2 hf
        obtain ⟨ht0, hray⟩ := hdet rfl
        rw [hray] at hmax
        simp only at hmax
        rw [← ht0] at hmax
        linarith

theorem traverse_spec (a : Accel) (mesh : Mesh) (ray : Ray3f) (sh : Bool)
    (htab : TableOK mesh a.m_primitives)
    {idx lo hi : Nat} (hc : Covers a.m_primitives a.m_nodes idx lo hi) :
    ∀ (fuel : Nat) (st : Traversal), idx < fuel → Traversal.Sound mesh ray sh st →
      Traversal.Sound mesh ray sh (traverse a mesh sh fuel idx st) ∧
      Traversal.Le sh st (traverse a mesh sh fuel idx st) ∧
      ∀ k p, lo ≤ k → k < hi → a.m_primitives[k]? = some p →
        Traversal.Settled mesh ray sh (traverse a mesh sh fuel idx st) p.index := by
  induction hc with
  | leaf idx lo hi bbox hnode hle hbox =>
    intro fuel st hfuel hs
    cases fuel with
    | zero => omega
    | succ fuel =>
      simp only [traverse]
      by_cases hret : sh = true ∧ st.found = true
      · rw [if_pos hret]
        refine ⟨hs, traversal_le_refl sh st, fun k p _ _ _ t _ => ⟨hret.2, fun h => ?_⟩⟩
        rw [hret.1] at h
        exact absurd h (by simp)
      · rw [if_neg hret]
        simp only [hnode, BvhNode.bbox]
        cases hbx : bbox.rayIntersect st.ray with
        | none =>
          exact ⟨hs, traversal_le_refl sh st,
            settled_of_pruned htab hbox hs (Or.inl hbx)⟩
        | some nf =>
          obtain ⟨tE, tX⟩ := nf
          simp only
          by_cases hfar : st.found = true ∧ st.its.t < tE
          · rw [if_pos hfar]
            exact ⟨hs, traversal_le_refl sh st,
              settled_of_pruned htab hbox hs (Or.inr ⟨tE, tX, hbx, hfar.1, hfar.2⟩)⟩
          · rw [if_neg hfar]
            obtain ⟨g1, g2, g3⟩ := foldl_intersectPrimitive_spec mesh ray sh
              ((a.m_primitives.drop lo).take (hi - lo)) st hs
            exact ⟨g1, g2, fun k p hk1 hk2 hp =>
              g3 p (mem_primitiveRange_of_getElem? a.m_primitives lo hi k p hk1 hk2 hp)⟩
  | interior idx lo mid hi bbox l r axis hnode hl hr hlo hhi _ _ hbox ihl ihr =>
    intro fuel st hfuel hs
    cases fuel with
    | zero => omega
    | succ fuel =>
      simp only [traverse]
      by_cases hret : sh = true ∧ st.found = true
      · rw [if_pos hret]
        refine ⟨hs, traversal_le_refl sh st, fun k p _ _ _ t _ => ⟨hret.2, fun h => ?_⟩⟩
        rw [hret.1] at h
        exact absurd h (by simp)
      · rw [if_neg hret]
        simp only [hnode, BvhNode.bbox]
        cases hbx : bbox.rayIntersect st.ray with
        | none =>
          exact ⟨hs, traversal_le_refl sh st,
            settled_of_pruned htab hbox hs (Or.inl hbx)⟩
        | some nf =>
          obtain ⟨tE, tX⟩ := nf
          simp only
          by_cases hfar : st.found = true ∧ st.its.t < tE
          · rw [if_pos hfar]
            exact ⟨hs, traversal_le_refl sh st,
              settled_of_pruned htab hbox hs (Or.inr ⟨tE, tX, hbx, hfar.1, hfar.2⟩)⟩
          · rw [if_neg hfar]
            by_cases hdir : st.ray.d axis < 0
            · rw [if_pos hdir]
              obtain ⟨r1, r2, r3⟩ := ihr fuel st (by omega) hs
              obtain ⟨l1, l2, l3⟩ := ihl fuel _ (by omega) r1
              refine ⟨l1, traversal_le_trans r2 l2, fun k p hk1 hk2 hp => ?_⟩
              by_cases hk : k < mid
              · exact l3 k p hk1 hk hp
              · exact settled_mono (r3 k p (by omega) hk2 hp) l2
            · rw [if_neg hdir]
              obtain ⟨l1, l2, l3⟩ := ihl fuel st (by omega) hs
              obtain ⟨r1, r2, r3⟩ := ihr fuel _ (by omega) l1
              refine ⟨r1, traversal_le_trans l2 r2, fun k p hk1 hk2 hp => ?_⟩
              by_cases hk : k < mid
              · exact settled_mono (l3 k p hk1 hk hp) r2
              · exact r3 k p (by omega) hk2 hp

/-! ## Builder: the hierarchy is well formed -/

theorem covers_mono {prims prims2 : List BvhPrimitiveInfo} {nodes : List BvhNode}
    (extra : List BvhNode) {idx lo hi : Nat} (hc : Covers prims nodes idx lo hi)
    (hp : ∀ k, lo ≤ k → k < hi → prims2[k]? = prims[k]?) :
    Covers prims2 (nodes ++ extra) idx lo hi := by
  have hnodes : ∀ (i : Nat) (n : BvhNode), nodes[i]? = some n → (nodes ++ extra)[i]? = some n := by
    intro i n h
    have hi : i < nodes.length := (List.getElem?_eq_some.mp h).1
    rw [List.getElem?_append_left hi]
    exact h
  induction hc with
  | leaf idx lo hi bbox hnode hle hbox =>
    exact Covers.leaf idx lo hi bbox (hnodes _ _ hnode) hle
      (fun k p h1 h2 h3 => hbox k p h1 h2 (by rw [← hp k h1 h2]; exact h3))
  | interior idx lo mid hi bbox l r axis hnode hl hr hlo hhi _ _ hbox ihl ihr =>
    exact Covers.interior idx lo mid hi bbox l r axis (hnodes _ _ hnode) hl hr hlo hhi
      (ihl (fun k h1 h2 => hp k h1 (by omega)))
      (ihr (fun k h1 h2 => hp k (by omega) h2))
      (fun k p h1 h2 h3 => hbox k p h1 h2 (by rw [← hp k h1 h2]; exact h3))

theorem covers_childBox {a : Accel} {idx lo hi : Nat}
    (hc : Covers a.m_primitives a.m_nodes idx lo hi) :
    ∀ k p, lo ≤ k → k < hi → a.m_primitives[k]? = some p →
      ∀ pt, p.bbox.contains pt → (a.childBox idx).contains pt := by
  cases hc with
  | leaf _ _ _ bbox hnode hle hbox =>
    simpa only [Accel.childBox, hnode, BvhNode.bbox] using hbox
  | interior _ _ mid _ bbox l r axis hnode hl hr hlo hhi _ _ hbox =>
    simpa only [Accel.childBox, hnode, BvhNode.bbox] using hbox

theorem rangeBounds_foldl_contains (range : List BvhPrimitiveInfo) (b : BoundingBox3f)
    (pt : Point3f)
    (h : b.contains pt ∨ ∃ p ∈ range, p.bbox.contains pt) :
    (range.foldl (fun (b : BoundingBox3f) p => b.union p.bbox) b).contains pt := by
  induction range generalizing b with
  | nil =>
    rcases h with h | ⟨p, hp, _⟩
    · exact h
    · exact absurd hp (by simp)
  | cons q qs ih =>
    simp only [List.foldl_cons]
    apply ih
    rcases h with h | ⟨p, hp, hpt⟩
    · exact Or.inl (BoundingBox3f.contains_union_left _ _ _ h)
    · rcases List.mem_cons.mp hp with rfl | hp
      · exact Or.inl (BoundingBox3f.contains_union_right _ _ _ hpt)
      · exact Or.inr ⟨p, hp, hpt⟩

theorem rangeBounds_contains (range : List BvhPrimitiveInfo) (p : BvhPrimitiveInfo)
    (hp : p ∈ range) (pt : Point3f) (hpt : p.bbox.contains pt) :
    (rangeBounds range).contains pt :=
  rangeBounds_foldl_contains range _ pt (Or.inr ⟨p, hp, hpt⟩)

theorem splitRange_perm (method : SplitMethod) (axis : Fin 3) (cbox : BoundingBox3f)
    (range : List BvhPrimitiveInfo) :
    (splitRange method axis cbox range).1.Perm range ∧
    (splitRange method axis cbox range).2 ≤ range.length := by
  cases method with
  | SPLIT_MIDDLE =>
    simp only [splitRange]
    exact ⟨List.filter_append_perm _ _, List.length_filter_le _ _⟩
  | SPLIT_EQUAL_COUNTS =>
    simp only [splitRange]
    exact ⟨List.perm_insertionSort _ _, Nat.div_le_self _ _⟩

theorem length_primitiveRange (a : Accel) (left right : Nat)
    (h : right ≤ a.m_primitives.length) :
    (a.primitiveRange left right).length = right - left := by
  simp only [primitiveRange, List.length_take, List.length_drop]
  omega

theorem primitives_eq_splice (a : Accel) (left right : Nat) (h1 : left ≤ right) :
    a.m_primitives =
      a.m_primitives.take left ++ a.primitiveRange left right ++ a.m_primitives.drop right := by
  have h3 : (a.m_primitives.drop left).drop (right - left) = a.m_primitives.drop right := by
    rw [List.drop_drop]
    congr 1
    omega
  simp only [primitiveRange]
  rw [List.append_assoc, ← h3, List.take_append_drop, List.take_append_drop]

theorem reorder_spec (a : Accel) (left right : Nat) (range : List BvhPrimitiveInfo)
    (h1 : left ≤ right) (h2 : right ≤ a.m_primitives.length)
    (hperm : range.Perm (a.primitiveRange left right)) :
    (a.reorder left right range).m_primitives.length = a.m_primitives.length ∧
    (∀ k, k < left ∨ right ≤ k →
      (a.reorder left right range).m_primitives[k]? = a.m_primitives[k]?) ∧
    (a.reorder left right range).m_primitives.Perm a.m_primitives := by
  have hlen : range.length = right - left := by
    rw [hperm.length_eq, length_primitiveRange a left right h2]
  have htake : (a.m_primitives.take left).length = left := by
    rw [List.length_take]; omega
  refine ⟨?_, ?_, ?_⟩
  · simp only [reorder, List.length_append, List.length_take, List.length_drop, hlen]
    omega
  · intro k hk
    simp only [reorder]
    rcases hk with hk | hk
    · rw [List.append_assoc, List.getElem?_append_left (by rw [htake]; exact hk),
        List.getElem?_take_of_lt hk]
    · rw [List.getElem?_append_right (by
        rw [List.length_append, htake, hlen]; omega)]
      rw [List.length_append, htake, hlen, List.getElem?_drop]
      congr 1
      omega
  · conv_rhs => rw [primitives_eq_splice a left right h1]
    simp only [reorder]
    exact (List.Perm.append_left _ hperm).append_right _

theorem emitLeaf_post (a : Accel) (left right : Nat) (h1 : left ≤ right) :
    BuildPost a left right (a.emitLeaf left right) := by
  refine
    { mesh_eq := rfl, bbox_eq := rfl, split_eq := rfl, maxPrims_eq := rfl
      nodes_eq := ⟨_, rfl, fun k => ?_⟩
      root_eq := by simp [emitLeaf]
      length_eq := rfl
      frame := fun _ _ => rfl
      perm := List.Perm.refl _
      covers := ?_ }
  · simp only [List.countP_cons, List.countP_nil, BvhNode.holds, zero_add]
    have e : left + (right - left) = right := by omega
    simp only [e]
    by_cases hk : left ≤ k ∧ k < right <;> simp [hk]
  · refine Covers.leaf _ left right (rangeBounds (a.primitiveRange left right))
      (by simp [emitLeaf]) h1 (fun k p hk1 hk2 hp pt hpt => ?_)
    exact rangeBounds_contains _ p
      (mem_primitiveRange_of_getElem? a.m_primitives left right k p hk1 hk2 hp) pt hpt

theorem emitInterior_post (a a1 : Accel) (left mid right : Nat) (axis : Fin 3)
    (l r : Accel × Nat) (h1 : left ≤ mid) (h2 : mid ≤ right)
    (ha1 : a1.m_mesh = a.m_mesh ∧ a1.m_bbox = a.m_bbox ∧ a1.m_splitMethod = a.m_splitMethod ∧
      a1.m_maxPrimitivesPerNode = a.m_maxPrimitivesPerNode ∧ a1.m_nodes = a.m_nodes)
    (hre : a1.m_primitives.length = a.m_primitives.length ∧
      (∀ k, k < left ∨ right ≤ k → a1.m_primitives[k]? = a.m_primitives[k]?) ∧
      a1.m_primitives.Perm a.m_primitives)
    (hl : BuildPost a1 left mid l) (hr : BuildPost l.1 mid right r) :
    BuildPost a left right (r.1.emitInterior l.2 r.2 axis) := by
  obtain ⟨eL, hLn, hLc⟩ := hl.nodes_eq
  obtain ⟨eR, hRn, hRc⟩ := hr.nodes_eq
  -- the left subtree, seen in the state the right recursion leaves
  have hcl : Covers r.1.m_primitives r.1.m_nodes l.2 left mid := by
    rw [hRn]
    exact covers_mono eR hl.covers (fun k _ hk => hr.frame k (Or.inl hk))
  have hcr : Covers r.1.m_primitives r.1.m_nodes r.2 mid right := hr.covers
  have hroot : r.1.m_nodes.length = l.1.m_nodes.length + eR.length := by
    rw [hRn, List.length_append]
  refine
    { mesh_eq := by rw [← ha1.1, ← hl.mesh_eq, ← hr.mesh_eq]; rfl
      bbox_eq := by rw [← ha1.2.1, ← hl.bbox_eq, ← hr.bbox_eq]; rfl
      split_eq := by rw [← ha1.2.2.1, ← hl.split_eq, ← hr.split_eq]; rfl
      maxPrims_eq := by rw [← ha1.2.2.2.1, ← hl.maxPrims_eq, ← hr.maxPrims_eq]; rfl
      nodes_eq := ⟨eL ++ eR ++ [.Interior ((r.1.childBox l.2).union (r.1.childBox r.2)) l.2 r.2 axis],
        ?_, fun k => ?_⟩
      root_eq := by simp [emitInterior]
      length_eq := by
        show r.1.m_primitives.length = _
        rw [hr.length_eq, hl.length_eq, hre.1]
      frame := fun k hk => by
        show r.1.m_primitives[k]? = _
        rw [hr.frame k (by omega), hl.frame k (by omega), hre.2.1 k hk]
      perm := (hr.perm.trans hl.perm).trans hre.2.2
      covers := ?_ }
  · simp only [emitInterior, hRn, hLn, ha1.2.2.2.2, List.append_assoc]
  · simp only [List.countP_append, hLc k, hRc k, List.countP_cons, List.countP_nil,
      BvhNode.holds]
    split_ifs <;> first | omega | simp_all
  · have hidx : (r.1.emitInterior l.2 r.2 axis).2 = r.1.m_nodes.length := rfl
    have hnodes : (r.1.emitInterior l.2 r.2 axis).1.m_nodes = r.1.m_nodes ++
        [.Interior ((r.1.childBox l.2).union (r.1.childBox r.2)) l.2 r.2 axis] := rfl
    have hprims : (r.1.emitInterior l.2 r.2 axis).1.m_primitives = r.1.m_primitives := rfl
    rw [hidx, hnodes, hprims]
    refine Covers.interior _ left mid right
      ((r.1.childBox l.2).union (r.1.childBox r.2)) l.2 r.2 axis (by simp) ?_ ?_ h1 h2
      (covers_mono _ hcl (fun _ _ _ => rfl)) (covers_mono _ hcr (fun _ _ _ => rfl)) ?_
    · have := hl.root_eq
      omega
    · have := hr.root_eq
      omega
    · intro k p hk1 hk2 hp pt hpt
      by_cases hk : k < mid
      · exact BoundingBox3f.contains_union_left _ _ _ (covers_childBox hcl k p hk1 hk hp pt hpt)
      · exact BoundingBox3f.contains_union_right _ _ _
          (covers_childBox hcr k p (by omega) hk2 hp pt hpt)

theorem buildRecursive_post (n : Nat) :
    ∀ (a : Accel) (left right depth : Nat), maxBuildDepth - depth = n → left ≤ right →
      right ≤ a.m_primitives.length →
      BuildPost a left right (buildRecursive a left right depth) := by
  induction n with
  | zero =>
    intro a left right depth hn h1 _
    rw [buildRecursive, if_pos (Or.inr (by omega))]
    exact emitLeaf_post a left right h1
  | succ n ih =>
    intro a left right depth hn h1 h2
    rw [buildRecursive]
    simp only
    split_ifs with hsmall hdegenerate
    · exact emitLeaf_post a left right h1
    · exact emitLeaf_post a left right h1
    · obtain ⟨hperm, hcount⟩ := splitRange_perm a.m_splitMethod
        (centroidBounds (a.primitiveRange left right)).getMajorAxis
        (centroidBounds (a.primitiveRange left right)) (a.primitiveRange left right)
      rw [length_primitiveRange a left right h2] at hcount
      generalize splitRange a.m_splitMethod
        (centroidBounds (a.primitiveRange left right)).getMajorAxis
        (centroidBounds (a.primitiveRange left right)) (a.primitiveRange left right) = sp
        at hperm hcount ⊢
      have hre := reorder_spec a left right sp.1 h1 h2 hperm
      have hl := ih (a.reorder left right sp.1) left (left + sp.2) (depth + 1)
        (by omega) (by omega) (by rw [hre.1]; omega)
      have hr := ih ((a.reorder left right sp.1).buildRecursive left (left + sp.2) (depth + 1)).1
        (left + sp.2) right (depth + 1) (by omega) (by omega)
        (by rw [hl.length_eq, hre.1]; exact h2)
      exact emitInterior_post a (a.reorder left right sp.1) left (left + sp.2) right _ _ _
        (by omega) (by omega) ⟨rfl, rfl, rfl, rfl, rfl⟩ hre hl hr

/-! ## `build()` followed by a query -/

theorem isBuilt_eq_false_iff (a : Accel) : a.isBuilt = false ↔ a.m_nodes = [] := by
  cases h : a.m_nodes <;> simp [isBuilt, h]

theorem build_of_not_built (a : Accel) (h : a.isBuilt = false) :
    a.build = (.ok (), (buildRecursive { a with m_primitives := primitiveInfoTable a.m_mesh } 0
      (primitiveInfoTable a.m_mesh).length 0).1) := by
  simp [build, h]

theorem build_post (a : Accel) :
    BuildPost { a with m_primitives := primitiveInfoTable a.m_mesh } 0
      (primitiveInfoTable a.m_mesh).length
      (buildRecursive { a with m_primitives := primitiveInfoTable a.m_mesh } 0
        (primitiveInfoTable a.m_mesh).length 0) :=
  buildRecursive_post _ _ 0 _ 0 rfl (Nat.zero_le _) (le_refl _)

theorem isBuilt_build (a : Accel) : a.build.2.isBuilt = true := by
  cases h : a.isBuilt with
  | true => simp [build, h]
  | false =>
    rw [build_of_not_built a h]
    have hp := build_post a
    have := hp.root_eq
    cases hn : (buildRecursive { a with m_primitives := primitiveInfoTable a.m_mesh } 0
        (primitiveInfoTable a.m_mesh).length 0).1.m_nodes with
    | nil => rw [hn] at this; simp at this
    | cons x xs => simp [isBuilt, hn]

theorem tableOK_primitiveInfoTable (mesh : Mesh) :
    TableOK mesh (primitiveInfoTable (some mesh)) := by
  intro p hp
  simp only [primitiveInfoTable, List.mem_map, List.mem_range] at hp
  obtain ⟨i, _, rfl⟩ := hp
  rfl

theorem mem_primitiveInfoTable (mesh : Mesh) (i : Nat) (hi : i < mesh.getTriangleCount) :
    ∃ p ∈ primitiveInfoTable (some mesh), p.index = i := by
  simp only [primitiveInfoTable, List.mem_map, List.mem_range]
  exact ⟨_, ⟨i, hi, rfl⟩, rfl⟩

theorem length_primitiveInfoTable (a : Accel) :
    (primitiveInfoTable a.m_mesh).length = a.registeredTriangleCount := by
  unfold primitiveInfoTable registeredTriangleCount
  cases a.m_mesh <;> simp

theorem map_index_primitiveInfoTable (a : Accel) :
    (primitiveInfoTable a.m_mesh).map (fun p => p.index) = List.range a.registeredTriangleCount := by
  unfold primitiveInfoTable registeredTriangleCount
  cases a.m_mesh with
  | none => simp
  | some mesh =>
    simp only [List.map_map]
    exact List.map_id _

/-- The query on a freshly built structure: the final state is sound and
every triangle is accounted for. -/
theorem rayIntersect_built (a : Accel) (mesh : Mesh) (ray : Ray3f) (its : Intersection)
    (sh : Bool) (h : a.isBuilt = false) (hm : a.m_mesh = some mesh) :
    ∃ st : Traversal, a.build.2.rayIntersect ray its sh = (st.found, st.its) ∧
      Traversal.Sound mesh ray sh st ∧ ∀ i, Traversal.Settled mesh ray sh st i := by
  have hp := build_post a
  rw [build_of_not_built a h]
  generalize buildRecursive { a with m_primitives := primitiveInfoTable a.m_mesh } 0
      (primitiveInfoTable a.m_mesh).length 0 = res at hp
  have hmesh : res.1.m_mesh = some mesh := by rw [hp.mesh_eq]; exact hm
  have hperm : res.1.m_primitives.Perm (primitiveInfoTable (some mesh)) := by
    have := hp.perm
    simp only [hm] at this
    exact this
  have htab : TableOK mesh res.1.m_primitives := fun p hp2 =>
    tableOK_primitiveInfoTable mesh p (hperm.mem_iff.mp hp2)
  have hroot := hp.root_eq
  have hcov : Covers res.1.m_primitives res.1.m_nodes (res.1.m_nodes.length - 1) 0
      (primitiveInfoTable (some mesh)).length := by
    have := hp.covers
    rw [show res.1.m_nodes.length - 1 = res.2 by omega]
    simp only [hm] at this
    exact this
  have hs0 : Traversal.Sound mesh ray sh { ray := ray, its := its, found := false } :=
    ⟨fun _ => rfl, fun hf => absurd hf (by simp)⟩
  obtain ⟨g1, _, g3⟩ := traverse_spec res.1 mesh ray sh htab hcov res.1.m_nodes.length
    { ray := ray, its := its, found := false } (by omega) hs0
  refine ⟨_, ?_, g1, fun i t ht => ?_⟩
  · simp only [rayIntersect, hmesh]
  · obtain ⟨p, hpm, hpi⟩ := mem_primitiveInfoTable mesh i
      (Mesh.lt_count_of_rayIntersect mesh i ray t ht)
    obtain ⟨k, hk⟩ := List.mem_iff_getElem?.mp (hperm.mem_iff.mpr hpm)
    have hklt : k < (primitiveInfoTable (some mesh)).length := by
      rw [← hperm.length_eq]
      exact (List.getElem?_eq_some.mp hk).1
    have := g3 k p (Nat.zero_le _) hklt hk t
    rw [hpi] at this
    exact this ht

theorem mem_exhaustiveHits (a : Accel) (mesh : Mesh) (ray : Ray3f) (t : ℚ)
    (hm : a.m_mesh = some mesh) :
    t ∈ a.exhaustiveHits ray ↔ ∃ i, mesh.rayIntersect i ray = some t := by
  simp only [exhaustiveHits, hm, List.mem_filterMap, List.mem_range]
  constructor
  · rintro ⟨i, _, h⟩
    exact ⟨i, h⟩
  · rintro ⟨i, h⟩
    exact ⟨i, Mesh.lt_count_of_rayIntersect mesh i ray t h, h⟩

theorem exhaustiveHits_build (a : Accel) (ray : Ray3f) (h : a.isBuilt = false) :
    a.build.2.exhaustiveHits ray = a.exhaustiveHits ray := by
  have hp := build_post a
  rw [build_of_not_built a h]
  simp only [exhaustiveHits, hp.mesh_eq]

/-! ## The claims -/

/-- C1: on an `Accel` on which `build()` had not run yet, after `build()` the
detailed query (`shadowRay = false`) returns `true` exactly when the
exhaustive test of the ray against every registered triangle finds a hit
within the ray's parametric interval, and then the distance it reports is
one of the exhaustive test's hit distances and no other is smaller. -/
theorem rayIntersect_detailed_eq_exhaustive (a : Accel) (ray : Ray3f) (its : Intersection)
    (h : a.isBuilt = false) :
    ((a.build.2.rayIntersect ray its false).1 = true ↔ a.build.2.exhaustiveHits ray ≠ []) ∧
    ((a.build.2.rayIntersect ray its false).1 = true →
      (a.build.2.rayIntersect ray its false).2.t ∈ a.build.2.exhaustiveHits ray ∧
      ∀ t ∈ a.build.2.exhaustiveHits ray, (a.build.2.rayIntersect ray its false).2.t ≤ t) := by
  rw [exhaustiveHits_build a ray h]
  cases hm : a.m_mesh with
  | none =>
    have hmesh : a.build.2.m_mesh = none := by
      rw [build_of_not_built a h, (build_post a).mesh_eq]
      exact hm
    simp [rayIntersect, hmesh, exhaustiveHits, hm]
  | some mesh =>
    obtain ⟨st, hst, hsound, hsettled⟩ := rayIntersect_built a mesh ray its false h hm
    rw [hst]
    have hfound : st.found = true → st.its.t ∈ a.exhaustiveHits ray := by
      intro hf
      obtain ⟨i, t, hit, hdet⟩ := hsound.2 hf
      rw [(hdet rfl).1]
      exact (mem_exhaustiveHits a mesh ray t hm).mpr ⟨i, hit⟩
    refine ⟨⟨fun hf => List.ne_nil_of_mem (hfound hf), fun hne => ?_⟩,
      fun hf => ⟨hfound hf, fun t ht => ?_⟩⟩
    · obtain ⟨t, ht⟩ := List.exists_mem_of_ne_nil _ hne
      obtain ⟨i, hit⟩ := (mem_exhaustiveHits a mesh ray t hm).mp ht
      exact (hsettled i t hit).1
    · obtain ⟨i, hit⟩ := (mem_exhaustiveHits a mesh ray t hm).mp ht
      exact (hsettled i t hit).2 rfl

/-- C2: on an `Accel` on which `build()` had not run yet, after `build()` the
shadow query (`shadowRay = true`) returns `true` if and only if some
registered triangle is met by the ray at a distance within `[mint, maxt]`. -/
theorem rayIntersect_shadow_iff (a : Accel) (ray : Ray3f) (its : Intersection)
    (h : a.isBuilt = false) :
    (a.build.2.rayIntersect ray its true).1 = true ↔
      ∃ mesh, a.m_mesh = some mesh ∧ ∃ tri ∈ mesh.triangles, ∃ t,
        tri.hitDistance ray.o ray.d = some t ∧ ray.mint ≤ t ∧ t ≤ ray.maxt := by
  cases hm : a.m_mesh with
  | none =>
    have hmesh : a.build.2.m_mesh = none := by
      rw [build_of_not_built a h, (build_post a).mesh_eq]
      exact hm
    simp [rayIntersect, hmesh]
  | some mesh =>
    obtain ⟨st, hst, hsound, hsettled⟩ := rayIntersect_built a mesh ray its true h hm
    rw [hst]
    constructor
    · intro hf
      obtain ⟨i, t, hit, _⟩ := hsound.2 hf
      obtain ⟨tri, h1, h2, h3, h4⟩ := (Mesh.rayIntersect_eq_some mesh i ray t).mp hit
      exact ⟨mesh, rfl, tri, List.mem_iff_getElem?.mpr ⟨i, h1⟩, t, h2, h3, h4⟩
    · rintro ⟨mesh2, hm2, tri, htri, t, h2, h3, h4⟩
      simp only [Option.some.injEq] at hm2
      subst hm2
      obtain ⟨i, hi⟩ := List.mem_iff_getElem?.mp htri
      exact (hsettled i t ((Mesh.rayIntersect_eq_some mesh i ray t).mpr ⟨tri, hi, h2, h3, h4⟩)).1

/-- C3: an `Accel` to which no mesh was added, before `build()` and after it,
answers every query, detailed or shadow, with `false` and leaves the
caller's record as it was. -/
theorem rayIntersect_no_mesh (primPerNode : Nat) (split : SplitMethod) (ray : Ray3f)
    (its : Intersection) (shadowRay : Bool) :
    (Accel.new primPerNode split).rayIntersect ray its shadowRay = (false, its) ∧
    (Accel.new primPerNode split).build.2.rayIntersect ray its shadowRay = (false, its) := by
  refine ⟨rfl, ?_⟩
  have hmesh : (Accel.new primPerNode split).build.2.m_mesh = none := by
    rw [build_of_not_built (Accel.new primPerNode split) rfl, (build_post _).mesh_eq]
    rfl
  simp [rayIntersect, hmesh]

/-- C4: on an `Accel` on which `build()` had not run yet, after `build()` the
primitive info array has one entry per registered triangle, its global
indices are a rearrangement of all triangle indices, and every position of
the array lies in the primitive range of exactly one Leaf of `m_nodes`
(and no position outside the array lies in any). -/
theorem build_leaves_partition (a : Accel) (h : a.isBuilt = false) :
    a.build.2.m_primitives.length = a.registeredTriangleCount ∧
    (a.build.2.m_primitives.map (fun p => p.index)).Perm (List.range a.registeredTriangleCount) ∧
    ∀ k, a.build.2.m_nodes.countP (BvhNode.holds k) =
      if k < a.build.2.m_primitives.length then 1 else 0 := by
  have hp := build_post a
  have hnil := (isBuilt_eq_false_iff a).mp h
  rw [build_of_not_built a h]
  generalize buildRecursive { a with m_primitives := primitiveInfoTable a.m_mesh } 0
      (primitiveInfoTable a.m_mesh).length 0 = res at hp
  have hlen : res.1.m_primitives.length = a.registeredTriangleCount := by
    rw [hp.length_eq]
    exact length_primitiveInfoTable a
  refine ⟨hlen, ?_, fun k => ?_⟩
  · rw [← map_index_primitiveInfoTable a]
    exact hp.perm.map _
  · obtain ⟨extra, hn, hc⟩ := hp.nodes_eq
    simp only [hnil, List.nil_append] at hn
    rw [hn, hc k, hlen, ← length_primitiveInfoTable a]
    simp

/-- C5: after `build()` has run, `addMesh` reports the usage error and
returns the object unchanged; on an object on which it has not run,
`addMesh` succeeds; and `addMesh` succeeds on no other object. -/
theorem addMesh_after_build (a : Accel) (mesh : Mesh) :
    a.build.2.addMesh mesh = (.error .addMeshAfterBuild, a.build.2) ∧
    (a.isBuilt = false → (a.addMesh mesh).1 = .ok ()) ∧
    ((a.addMesh mesh).1 = .ok () → a.isBuilt = false) := by
  refine ⟨?_, fun h => ?_, fun h => ?_⟩
  · simp [addMesh, isBuilt_build a]
  · simp [addMesh, h]
  · cases hb : a.isBuilt with
    | false => rfl
    | true => simp [addMesh, hb] at h

/-- C6: `Accel(p, s)` stores `p` as the maximum number of primitives per leaf
and `s` as the split method; `Accel()` stores 8 and `SPLIT_MIDDLE`. -/
theorem new_config (primPerNode : Nat) (split : SplitMethod) :
    (Accel.new primPerNode split).m_maxPrimitivesPerNode = primPerNode ∧
    (Accel.new primPerNode split).m_splitMethod = split ∧
    Accel.newDefault.m_maxPrimitivesPerNode = 8 ∧
    Accel.newDefault.m_splitMethod = SplitMethod.SPLIT_MIDDLE :=
  ⟨rfl, rfl, rfl, rfl⟩

/-- C7, as stated, fails: `Accel(0)` is accepted and stores 0 as the maximum
number of primitives per leaf. -/
theorem new_zero_not_positive :
    ¬ (1 ≤ (Accel.new 0 SplitMethod.SPLIT_MIDDLE).m_maxPrimitivesPerNode) := by
  decide

/-- C7, amended: the constructor stores its argument unchecked, so the
configured maximum number of primitives per leaf is at least 1 exactly when
the argument `primPerNode` is; the default configuration has 8. -/
theorem new_positive_iff (primPerNode : Nat) (split : SplitMethod) :
    (1 ≤ (Accel.new primPerNode split).m_maxPrimitivesPerNode ↔ 1 ≤ primPerNode) ∧
    1 ≤ Accel.newDefault.m_maxPrimitivesPerNode :=
  ⟨Iff.rfl, by decide⟩

/-- C8: `getBoundingBox` returns the stored box `m_bbox` and leaves the
object, every field of it, as it was; a second call returns the same box. -/
theorem getBoundingBox_readonly (a : Accel) :
    a.getBoundingBox.1 = a.m_bbox ∧ a.getBoundingBox.2 = a ∧
    a.getBoundingBox.2.getBoundingBox.1 = a.getBoundingBox.1 :=
  ⟨rfl, rfl, rfl⟩

/-- C9: the destructor deletes the entries of `m_primitives` in order, then
the entries of `m_nodes` in order, and nothing else; when the entries of
each list are pairwise distinct no entry is deleted twice; afterwards both
lists are empty and the mesh, the box and the configuration are as they
were. -/
theorem destroy_releases (a : Accel) (hp : a.m_primitives.Nodup) (hn : a.m_nodes.Nodup) :
    a.destroy.1 = a.m_primitives.map Released.primitive ++ a.m_nodes.map Released.node ∧
    a.destroy.1.Nodup ∧
    a.destroy.2.m_primitives = [] ∧ a.destroy.2.m_nodes = [] ∧
    a.destroy.2.m_mesh = a.m_mesh ∧ a.destroy.2.m_bbox = a.m_bbox ∧
    a.destroy.2.m_splitMethod = a.m_splitMethod ∧
    a.destroy.2.m_maxPrimitivesPerNode = a.m_maxPrimitivesPerNode := by
  have hlog : a.destroy.1 =
      a.m_primitives.map Released.primitive ++ a.m_nodes.map Released.node := by
    have hfold : ∀ {α : Type} (f : α → Released) (l : List α) (init : List Released),
        l.foldl (fun log x => log ++ [f x]) init = init ++ l.map f := by
      intro α f l
      induction l with
      | nil => intro init; simp
      | cons x xs ih => intro init; simp [ih]
    simp only [destroy, hfold, List.nil_append]
  refine ⟨hlog, ?_, rfl, rfl, rfl, rfl, rfl, rfl⟩
  rw [hlog]
  refine List.Nodup.append ?_ ?_ ?_
  · exact hp.map (fun x y hxy => by injection hxy)
  · exact hn.map (fun x y hxy => by injection hxy)
  · intro e h1 h2
    obtain ⟨p, _, rfl⟩ := List.mem_map.mp h1
    obtain ⟨n, _, hne⟩ := List.mem_map.mp h2
    exact absurd hne (by simp)

/-- C10: a freshly constructed `Accel` holds no mesh, no primitive info
entry and no node, whatever its configuration. -/
theorem new_empty (primPerNode : Nat) (split : SplitMethod) :
    (Accel.new primPerNode split).m_mesh = none ∧
    (Accel.new primPerNode split).m_primitives.length = 0 ∧
    (Accel.new primPerNode split).m_nodes.length = 0 :=
  ⟨rfl, rfl, rfl⟩

/-- Witness of C1: the sample scene, on which `build()` has not run, queried
in detailed mode with the sample ray. -/
theorem rayIntersect_detailed_eq_exhaustive_witness :
    sampleAccel.isBuilt = false ∧
    (((sampleAccel.build.2.rayIntersect sampleRay ⟨0, 0⟩ false).1 = true ↔
        sampleAccel.build.2.exhaustiveHits sampleRay ≠ []) ∧
      ((sampleAccel.build.2.rayIntersect sampleRay ⟨0, 0⟩ false).1 = true →
        (sampleAccel.build.2.rayIntersect sampleRay ⟨0, 0⟩ false).2.t ∈
          sampleAccel.build.2.exhaustiveHits sampleRay ∧
        ∀ t ∈ sampleAccel.build.2.exhaustiveHits sampleRay,
          (sampleAccel.build.2.rayIntersect sampleRay ⟨0, 0⟩ false).2.t ≤ t)) :=
  ⟨rfl, rayIntersect_detailed_eq_exhaustive sampleAccel sampleRay ⟨0, 0⟩ rfl⟩

/-- Witness of C2: the sample scene, on which `build()` has not run, queried
in shadow mode with the sample ray. -/
theorem rayIntersect_shadow_iff_witness :
    sampleAccel.isBuilt = false ∧
    ((sampleAccel.build.2.rayIntersect sampleRay ⟨0, 0⟩ true).1 = true ↔
      ∃ mesh, sampleAccel.m_mesh = some mesh ∧ ∃ tri ∈ mesh.triangles, ∃ t,
        tri.hitDistance sampleRay.o sampleRay.d = some t ∧
          sampleRay.mint ≤ t ∧ t ≤ sampleRay.maxt) :=
  ⟨rfl, rayIntersect_shadow_iff sampleAccel sampleRay ⟨0, 0⟩ rfl⟩

/-- Witness of C4: the sample scene, on which `build()` has not run, is
built. -/
theorem build_leaves_partition_witness :
    sampleAccel.isBuilt = false ∧
    (sampleAccel.build.2.m_primitives.length = sampleAccel.registeredTriangleCount ∧
      (sampleAccel.build.2.m_primitives.map (fun p => p.index)).Perm
        (List.range sampleAccel.registeredTriangleCount) ∧
      ∀ k, sampleAccel.build.2.m_nodes.countP (BvhNode.holds k) =
        if k < sampleAccel.build.2.m_primitives.length then 1 else 0) :=
  ⟨rfl, build_leaves_partition sampleAccel rfl⟩

/-- Witness of C9: an object that holds one primitive info entry and two
distinct nodes is destroyed. -/
theorem destroy_releases_witness :
    sampleOwned.m_primitives.Nodup ∧ sampleOwned.m_nodes.Nodup ∧
    sampleOwned.destroy.1 =
      sampleOwned.m_primitives.map Released.primitive ++
        sampleOwned.m_nodes.map Released.node ∧
    sampleOwned.destroy.1.Nodup ∧
    sampleOwned.destroy.2.m_primitives = [] ∧ sampleOwned.destroy.2.m_nodes = [] ∧
    sampleOwned.destroy.2.m_mesh = sampleOwned.m_mesh ∧
    sampleOwned.destroy.2.m_bbox = sampleOwned.m_bbox ∧
    sampleOwned.destroy.2.m_splitMethod = sampleOwned.m_splitMethod ∧
    sampleOwned.destroy.2.m_maxPrimitivesPerNode = sampleOwned.m_maxPrimitivesPerNode :=
  ⟨List.nodup_singleton _, by simp [sampleOwned],
    destroy_releases sampleOwned (List.nodup_singleton _) (by simp [sampleOwned])⟩

end Accel

end Nori
